import Mathlib

/-!
Verification of the lexicographic matrix canonicalizer from the notebook
fun_domain_pytorch.ipynb (functions swap_rows, swap_cols, greater,
maximise_matrix).  Matrices are embedded as lists of rows over an arbitrary
linear order (modelling finite real entries); the Python while-loop is
embedded with explicit fuel, together with a proof that the fuel bound
(factorial of the entry count, plus one) always suffices, so that the
total function maximise_matrix agrees with the loop.
-/

set_option linter.unusedSectionVars false

namespace InvariantML

/-- A matrix is a list of rows. -/
abbrev Mat (α : Type) := List (List α)

variable {α : Type} [LinearOrder α]

/-- Row count, as in M.shape[0] of a numpy 2-d array. -/
def nRows (M : Mat α) : Nat := M.length

/-- Column count, as in M.shape[1] of a numpy 2-d array (length of the first
row; numpy arrays are rectangular by construction). -/
def nCols (M : Mat α) : Nat := (M.head?.map List.length).getD 0

/-- Rectangularity: every row has length nCols M.  This is automatic for a
numpy 2-d array and is the validity precondition of the spec. -/
def Rect (M : Mat α) : Prop := ∀ r ∈ M, r.length = nCols M

/-- Row-major flattening, as in np.reshape(M, -1). -/
def flatten (M : Mat α) : List α := M.flatten

/-- Exchange the entries at positions i and j of a list, as numpy fancy
assignment v[[i,j]] = v[[j,i]] does on the rows of a copy. -/
def swapList (l : List α) (i j : Nat) : List α :=
  match l[i]?, l[j]? with
  | some x, some y => (l.set i y).set j x
  | _, _ => l

/-- Source: swap_rows(M, i, j) returns a copy of M with rows i and j
exchanged. -/
def swap_rows (M : Mat α) (i j : Nat) : Mat α := swapList M i j

/-- Source: swap_cols(M, i, j) returns a copy of M with columns i and j
exchanged. -/
def swap_cols (M : Mat α) (i j : Nat) : Mat α := M.map (fun r => swapList r i j)

/-- Source: the body of greater on the flattened arrays.  The numpy code
finds the first index where (A>B) != (A<B) holds (the first index where the
entries differ, for a linear order) and returns A[idx] > B[idx] there; if no
index differs (IndexError from the empty np.where) it returns False. -/
def lexGtFlat : List α → List α → Bool
  | a :: as, b :: bs => if decide (a > b) ≠ decide (a < b) then decide (a > b) else lexGtFlat as bs
  | _, _ => false

/-- Source: greater(A, B) reshapes both arguments to one dimension and
compares them lexicographically; no shape check is performed. -/
def greater (A B : Mat α) : Bool := lexGtFlat (flatten A) (flatten B)

/-- The list produced by itertools.combinations(range n, 2): all pairs
(i, j) with i < j < n, in ascending order. -/
def pairs (n : Nat) : List (Nat × Nat) :=
  (List.range n).flatMap fun i => ((List.range n).filter fun j => decide (i < j)).map fun j => (i, j)

/-- One step of the scan in maximise_matrix: test whether applying the swap
f at the pair p to the current matrix yields a lexicographically greater
matrix; if so adopt it and record that an improvement happened. -/
def passStep (f : Mat α → Nat → Nat → Mat α) (acc : Mat α × Bool) (p : Nat × Nat) :
    Mat α × Bool :=
  if greater (f acc.1 p.1 p.2) acc.1 then (f acc.1 p.1 p.2, true) else acc

/-- Scan a list of index pairs, accepting every improving swap as the
Python for-loops do (testing each pair against the possibly-updated current
matrix). -/
def scanPairs (f : Mat α → Nat → Nat → Mat α) (ps : List (Nat × Nat)) (acc : Mat α × Bool) :
    Mat α × Bool :=
  ps.foldl (passStep f) acc

/-- One iteration of the while-loop body of maximise_matrix: scan all row
pairs, then all column pairs, threading the improvement flag (the negation
of max_found). -/
def fullPass (r c : Nat) (M : Mat α) : Mat α × Bool :=
  scanPairs swap_cols (pairs c) (scanPairs swap_rows (pairs r) (M, false))

/-- The while-loop of maximise_matrix with explicit fuel: run full passes
until a pass accepts no swap (max_found), or the fuel runs out. -/
def maximiseAux (r c : Nat) : Nat → Mat α → Option (Mat α)
  | 0, _ => none
  | fuel + 1, M =>
    let p := fullPass r c M
    if p.2 then maximiseAux r c fuel p.1 else some p.1

/-- Fuel that always suffices (proved below): one more than the factorial
of the number of entries, which bounds the length of any strictly
lexicographically increasing chain of rearrangements of the entries. -/
def fuelFor (M : Mat α) : Nat := (flatten M).length.factorial + 1

/-- Source: maximise_matrix(M).  The row and column counts are read from
the shape of the input once, and full passes run until none improves; the
getD fallback is never taken (theorem maximiseAux_fuelFor_isSome below). -/
def maximise_matrix (M : Mat α) : Mat α :=
  (maximiseAux (nRows M) (nCols M) (fuelFor M) M).getD M

/-- Instrumented scan that counts the accepted swaps instead of a flag. -/
def scanCnt (f : Mat α → Nat → Nat → Mat α) (ps : List (Nat × Nat)) (M : Mat α) :
    Mat α × Nat :=
  ps.foldl
    (fun acc p => if greater (f acc.1 p.1 p.2) acc.1 then (f acc.1 p.1 p.2, acc.2 + 1) else acc)
    (M, 0)

/-- Instrumented while-loop of maximise_matrix: identical control flow, but
accumulating the numbers of accepted row swaps and accepted column swaps. -/
def maximiseCntAux (r c : Nat) : Nat → Mat α → Nat → Nat → Option (Mat α × Nat × Nat)
  | 0, _, _, _ => none
  | fuel + 1, M, nr, nc =>
    let a := scanCnt swap_rows (pairs r) M
    let b := scanCnt swap_cols (pairs c) a.1
    if a.2 + b.2 = 0 then some (b.1, nr, nc)
    else maximiseCntAux r c fuel b.1 (nr + a.2) (nc + b.2)

/-- Instrumented maximise_matrix: the canonicalized matrix together with
the number of accepted row swaps and of accepted column swaps. -/
def maximiseCnt (M : Mat α) : Option (Mat α × Nat × Nat) :=
  maximiseCntAux (nRows M) (nCols M) (fuelFor M) M 0 0

/-- Lexicographic strictly-greater, stated the way the spec words it: there
is a position where the flattened sequences differ, and at the first such
position the left value exceeds the right value. -/
def lexGtSpec (x y : List α) : Prop :=
  ∃ (k : Nat) (a b : α),
    x[k]? = some a ∧ y[k]? = some b ∧ b < a ∧ ∀ m : Nat, m < k → x[m]? = y[m]?

/-- Termination measure: the number of rearrangements of the entries that
are strictly lexicographically greater than the current matrix; every
improving pass strictly decreases it. -/
def lexMeasure (N : Mat α) : Nat :=
  ((flatten N).permutations).countP fun g => lexGtFlat g (flatten N)

/-- Heap of numpy arrays, for the mutation claim: addresses are indices. -/
abbrev Store (α : Type) : Type := List (Mat α)

/-- Read the array stored at address a (empty matrix if unallocated). -/
def readS (s : Store α) (a : Nat) : Mat α := (s[a]?).getD []

/-- Overwrite the array stored at address a in place. -/
def writeS (s : Store α) (a : Nat) (M : Mat α) : Store α := List.set s a M

/-- Length of the store, i.e. the next fresh address. -/
def sizeS (s : Store α) : Nat := List.length s

/-- Allocate a new array initialized with M, returning its address. -/
def alloc (s : Store α) (M : Mat α) : Store α × Nat := (s ++ [M], sizeS s)

/-- State-passing embedding of swap_rows: v = M.copy() allocates a fresh
cell holding a copy of the caller array, the fancy assignment mutates only
that fresh cell, and the fresh address is returned. -/
def swapRowsProg (s : Store α) (m i j : Nat) : Store α × Nat :=
  let c := alloc s (readS s m)
  (writeS c.1 c.2 (swapList (readS c.1 c.2) i j), c.2)

/-- State-passing embedding of swap_cols, with the same copy-then-mutate
shape as swapRowsProg. -/
def swapColsProg (s : Store α) (m i j : Nat) : Store α × Nat :=
  let c := alloc s (readS s m)
  (writeS c.1 c.2 ((readS c.1 c.2).map (fun row => swapList row i j)), c.2)

/-- State-passing embedding of one conditional swap inside maximise_matrix.
Python evaluates swap_rows(M, i, j) once for the test and, when the test
succeeds, a second time for the assignment, so the swap program runs once
or twice; the local name M is rebound, never written through. -/
def passStepProg (f : Store α → Nat → Nat → Nat → Store α × Nat)
    (acc : Store α × Nat × Bool) (p : Nat × Nat) : Store α × Nat × Bool :=
  let t := f acc.1 acc.2.1 p.1 p.2
  if greater (readS t.1 t.2) (readS t.1 acc.2.1) then
    let u := f t.1 acc.2.1 p.1 p.2
    (u.1, u.2, true)
  else (t.1, acc.2.1, acc.2.2)

/-- State-passing embedding of one full pass of the while-loop body. -/
def fullPassProg (r c : Nat) (s : Store α) (m : Nat) : Store α × Nat × Bool :=
  (pairs c).foldl (passStepProg swapColsProg)
    ((pairs r).foldl (passStepProg swapRowsProg) (s, m, false))

/-- State-passing embedding of the while-loop of maximise_matrix. -/
def maximiseProgAux (r c : Nat) : Nat → Store α → Nat → Store α × Nat
  | 0, s, m => (s, m)
  | fuel + 1, s, m =>
    let p := fullPassProg r c s m
    if p.2.2 then maximiseProgAux r c fuel p.1 p.2.1 else (p.1, p.2.1)

/-- State-passing embedding of maximise_matrix: takes the store and the
address of the caller array, returns the final store and the address of
the returned array. -/
def maximiseProg (s : Store α) (m : Nat) : Store α × Nat :=
  maximiseProgAux (nRows (readS s m)) (nCols (readS s m)) (fuelFor (readS s m)) s m


/-- Frame relation between stores: the second extends the first, leaving
every previously allocated cell unchanged. -/
def storeExtends (s t : Store α) : Prop :=
  sizeS s ≤ sizeS t ∧ ∀ k : Nat, k < sizeS s → readS t k = readS s k


/-- Rectangularity is decidable, so concrete witnesses can be checked by
evaluation. -/
instance decidableRect (M : Mat α) : Decidable (Rect M) :=
  List.decidableBAll (fun (r : List α) => r.length = nCols M) M

/-! Basic lemmas about swapList. -/

theorem swapList_length (l : List α) (i j : Nat) : (swapList l i j).length = l.length := by
  unfold swapList
  split <;> simp

theorem cons_perm_set {l : List α} {n : Nat} {y : α} (h : l[n]? = some y) (x : α) :
    List.Perm (x :: l) (y :: l.set n x) := by
  induction l generalizing n with
  | nil => simp at h
  | cons a t ih =>
    cases n with
    | zero =>
      rw [List.getElem?_cons_zero, Option.some_inj] at h
      subst h
      exact List.Perm.swap a x t
    | succ m =>
      rw [List.getElem?_cons_succ] at h
      exact ((List.Perm.swap a x t).trans (List.Perm.cons a (ih h))).trans
        (List.Perm.swap y a (t.set m x))


theorem set_set_perm {l : List α} {i j : Nat} {x y : α}
    (hi : l[i]? = some x) (hj : l[j]? = some y) :
    List.Perm ((l.set i y).set j x) l := by
  induction l generalizing i j with
  | nil => simp at hi
  | cons a t ih =>
    cases i with
    | zero =>
      rw [List.getElem?_cons_zero, Option.some_inj] at hi
      cases j with
      | zero =>
        rw [List.getElem?_cons_zero, Option.some_inj] at hj
        rw [← hi, ← hj]
        exact List.Perm.refl _
      | succ m =>
        rw [List.getElem?_cons_succ] at hj
        rw [← hi]
        exact (cons_perm_set hj a).symm
    | succ n =>
      rw [List.getElem?_cons_succ] at hi
      cases j with
      | zero =>
        rw [List.getElem?_cons_zero, Option.some_inj] at hj
        rw [← hj]
        exact (cons_perm_set hi a).symm
      | succ m =>
        rw [List.getElem?_cons_succ] at hj
        exact List.Perm.cons a (ih hi hj)

theorem swapList_perm (l : List α) (i j : Nat) : List.Perm (swapList l i j) l := by
  unfold swapList
  split
  case _ x y hi hj => exact set_set_perm hi hj
  case _ => exact List.Perm.refl _

theorem set_getElem?_self {l : List α} {i : Nat} {x : α} (h : l[i]? = some x) :
    l.set i x = l := by
  induction l generalizing i with
  | nil => simp at h
  | cons a t ih =>
    cases i with
    | zero =>
      rw [List.getElem?_cons_zero, Option.some_inj] at h
      rw [← h, List.set_cons_zero]
    | succ n =>
      rw [List.getElem?_cons_succ] at h
      rw [List.set_cons_succ, ih h]

theorem swapList_self (l : List α) (i : Nat) : swapList l i i = l := by
  unfold swapList
  split
  case _ x y hi hj =>
    rw [hi, Option.some_inj] at hj
    rw [← hj, List.set_set, set_getElem?_self hi]
  case _ => rfl

theorem swapList_symm (l : List α) (i j : Nat) : swapList l i j = swapList l j i := by
  rcases eq_or_ne i j with rfl | hne
  · rfl
  · unfold swapList
    cases hi : l[i]? with
    | none => cases hj : l[j]? <;> rfl
    | some x =>
      cases hj : l[j]? with
      | none => rfl
      | some y => exact List.set_comm y x l hne

/-! Lemmas about the lexicographic comparison. -/

theorem lexGtFlat_nil_left (y : List α) : lexGtFlat ([] : List α) y = false := by
  cases y <;> rfl

theorem lexGtFlat_nil_right (x : List α) : lexGtFlat x ([] : List α) = false := by
  cases x <;> rfl

theorem lexGtFlat_cons (a b : α) (as bs : List α) :
    lexGtFlat (a :: as) (b :: bs) =
      if b < a then true else if a < b then false else lexGtFlat as bs := by
  show (if decide (a > b) ≠ decide (a < b) then decide (a > b) else lexGtFlat as bs) = _
  rcases lt_trichotomy a b with h | h | h
  · have h1 : ¬ b < a := lt_asymm h
    simp [h, h1, gt_iff_lt]
  · subst h
    simp [lt_irrefl]
  · have h1 : ¬ a < b := lt_asymm h
    simp [h, h1, gt_iff_lt]

theorem lexGtFlat_self (l : List α) : lexGtFlat l l = false := by
  induction l with
  | nil => rfl
  | cons a t ih => rw [lexGtFlat_cons]; simp [lt_irrefl, ih]

theorem lexGtFlat_trans {x y z : List α} (hxy : x.length = y.length)
    (hyz : y.length = z.length) (h1 : lexGtFlat x y = true) (h2 : lexGtFlat y z = true) :
    lexGtFlat x z = true := by
  induction x generalizing y z with
  | nil => rw [lexGtFlat_nil_left] at h1; exact absurd h1 (by simp)
  | cons a as ih =>
    cases y with
    | nil => rw [lexGtFlat_nil_right] at h1; exact absurd h1 (by simp)
    | cons b bs =>
      cases z with
      | nil => rw [lexGtFlat_nil_right] at h2; exact absurd h2 (by simp)
      | cons c cs =>
        rw [lexGtFlat_cons] at h1 h2 ⊢
        by_cases hba : b < a
        · by_cases hcb : c < b
          · simp [lt_trans hcb hba]
          · by_cases hbc : b < c
            · rw [if_neg hcb, if_pos hbc] at h2; exact absurd h2 (by simp)
            · have hbceq : b = c := le_antisymm (not_lt.mp hcb) (not_lt.mp hbc)
              simp [hbceq ▸ hba]
        · by_cases hab : a < b
          · rw [if_neg hba, if_pos hab] at h1; exact absurd h1 (by simp)
          · have habeq : a = b := le_antisymm (not_lt.mp hba) (not_lt.mp hab)
            rw [if_neg hba, if_neg hab] at h1
            by_cases hcb : c < b
            · simp [habeq ▸ hcb]
            · by_cases hbc : b < c
              · rw [if_neg hcb, if_pos hbc] at h2; exact absurd h2 (by simp)
              · have hbceq : b = c := le_antisymm (not_lt.mp hcb) (not_lt.mp hbc)
                rw [if_neg hcb, if_neg hbc] at h2
                have hca : ¬ c < a := by rw [habeq, hbceq]; exact lt_irrefl c
                have hac : ¬ a < c := by rw [habeq, hbceq]; exact lt_irrefl c
                rw [if_neg hca, if_neg hac]
                exact ih (by simpa using hxy) (by simpa using hyz) h1 h2

theorem lexGtSpec_cons_eq (a : α) (as bs : List α) :
    lexGtSpec (a :: as) (a :: bs) ↔ lexGtSpec as bs := by
  constructor
  · rintro ⟨k, x, y, h1, h2, h3, h4⟩
    cases k with
    | zero =>
      rw [List.getElem?_cons_zero, Option.some_inj] at h1 h2
      rw [← h1, ← h2] at h3
      exact absurd h3 (lt_irrefl a)
    | succ m =>
      rw [List.getElem?_cons_succ] at h1 h2
      refine ⟨m, x, y, h1, h2, h3, fun m2 hm2 => ?_⟩
      have := h4 (m2 + 1) (Nat.succ_lt_succ hm2)
      rwa [List.getElem?_cons_succ, List.getElem?_cons_succ] at this
  · rintro ⟨k, x, y, h1, h2, h3, h4⟩
    refine ⟨k + 1, x, y, ?_, ?_, h3, fun m hm => ?_⟩
    · rwa [List.getElem?_cons_succ]
    · rwa [List.getElem?_cons_succ]
    · cases m with
      | zero => rw [List.getElem?_cons_zero, List.getElem?_cons_zero]
      | succ m2 =>
        rw [List.getElem?_cons_succ, List.getElem?_cons_succ]
        exact h4 m2 (Nat.lt_of_succ_lt_succ hm)

theorem lexGtFlat_iff_spec : ∀ (x y : List α), lexGtFlat x y = true ↔ lexGtSpec x y := by
  intro x
  induction x with
  | nil =>
    intro y
    rw [lexGtFlat_nil_left]
    constructor
    · intro h; exact absurd h (by simp)
    · rintro ⟨k, a, b, h1, _⟩
      exact absurd h1 (by simp)
  | cons a as ih =>
    intro y
    cases y with
    | nil =>
      rw [lexGtFlat_nil_right]
      constructor
      · intro h; exact absurd h (by simp)
      · rintro ⟨k, x, b, _, h2, _⟩
        exact absurd h2 (by simp)
    | cons b bs =>
      rw [lexGtFlat_cons]
      rcases lt_trichotomy a b with h | h | h
      · rw [if_neg (lt_asymm h), if_pos h]
        constructor
        · intro hf; exact absurd hf (by simp)
        · rintro ⟨k, x, y, h1, h2, h3, h4⟩
          cases k with
          | zero =>
            rw [List.getElem?_cons_zero, Option.some_inj] at h1 h2
            rw [← h1, ← h2] at h3
            exact absurd h3 (lt_asymm h)
          | succ m =>
            have h0 := h4 0 (Nat.succ_pos m)
            rw [List.getElem?_cons_zero, List.getElem?_cons_zero, Option.some_inj] at h0
            exact absurd h0 (ne_of_lt h)
      · subst h
        rw [if_neg (lt_irrefl a), if_neg (lt_irrefl a)]
        rw [ih bs]
        exact (lexGtSpec_cons_eq a as bs).symm
      · rw [if_pos h]
        constructor
        · intro _
          exact ⟨0, a, b, List.getElem?_cons_zero, List.getElem?_cons_zero, h,
            fun m hm => absurd hm (Nat.not_lt_zero m)⟩
        · intro _; rfl

/-! Permutation and shape lemmas for the swap operations. -/

theorem perm_flatten {l1 l2 : List (List α)} (h : List.Perm l1 l2) :
    List.Perm l1.flatten l2.flatten := by
  induction h with
  | nil => exact List.Perm.refl _
  | cons x _ ih => exact List.Perm.append_left x ih
  | swap x y l =>
    rw [List.flatten_cons, List.flatten_cons, List.flatten_cons, List.flatten_cons,
      ← List.append_assoc, ← List.append_assoc]
    exact List.Perm.append_right _ List.perm_append_comm
  | trans _ _ ih1 ih2 => exact ih1.trans ih2

theorem flatten_swap_rows_perm (M : Mat α) (i j : Nat) :
    List.Perm (flatten (swap_rows M i j)) (flatten M) :=
  perm_flatten (swapList_perm M i j)

theorem flatten_swap_cols_perm (M : Mat α) (i j : Nat) :
    List.Perm (flatten (swap_cols M i j)) (flatten M) := by
  unfold swap_cols flatten
  induction M with
  | nil => exact List.Perm.refl _
  | cons r rs ih =>
    rw [List.map_cons, List.flatten_cons, List.flatten_cons]
    exact (swapList_perm r i j).append ih

theorem nRows_swap_rows (M : Mat α) (i j : Nat) : nRows (swap_rows M i j) = nRows M :=
  swapList_length M i j

theorem nRows_swap_cols (M : Mat α) (i j : Nat) : nRows (swap_cols M i j) = nRows M := by
  simp [swap_cols, nRows]

theorem nCols_swap_cols (M : Mat α) (i j : Nat) : nCols (swap_cols M i j) = nCols M := by
  cases M with
  | nil => rfl
  | cons r rs => simp [swap_cols, nCols, swapList_length]

theorem nCols_swap_rows {M : Mat α} (h : Rect M) (i j : Nat) :
    nCols (swap_rows M i j) = nCols M := by
  cases hs : swap_rows M i j with
  | nil =>
    have hlen : M.length = 0 := by
      have := nRows_swap_rows M i j
      rw [hs] at this
      exact this.symm
    cases M with
    | nil => rfl
    | cons r rs => simp at hlen
  | cons r rs =>
    have hr : r ∈ M := by
      have hmem : r ∈ swap_rows M i j := by rw [hs]; exact List.mem_cons_self r rs
      exact ((swapList_perm M i j).mem_iff).mp hmem
    simp [nCols, h r hr]

theorem rect_swap_rows {M : Mat α} (h : Rect M) (i j : Nat) : Rect (swap_rows M i j) := by
  intro r hr
  have hrM : r ∈ M := ((swapList_perm M i j).mem_iff).mp hr
  rw [nCols_swap_rows h i j]
  exact h r hrM

theorem rect_swap_cols {M : Mat α} (h : Rect M) (i j : Nat) : Rect (swap_cols M i j) := by
  intro r hr
  rcases List.mem_map.mp hr with ⟨r0, hr0, rfl⟩
  rw [nCols_swap_cols M i j, swapList_length]
  exact h r0 hr0

/-! Lemmas about the accept-and-continue scans. -/

theorem scanPairs_nil (f : Mat α → Nat → Nat → Mat α) (acc : Mat α × Bool) :
    scanPairs f [] acc = acc := rfl

theorem scanPairs_cons (f : Mat α → Nat → Nat → Mat α) (p : Nat × Nat)
    (ps : List (Nat × Nat)) (acc : Mat α × Bool) :
    scanPairs f (p :: ps) acc = scanPairs f ps (passStep f acc p) := rfl

theorem scanPairs_flag_mono (f : Mat α → Nat → Nat → Mat α) (ps : List (Nat × Nat))
    (acc : Mat α × Bool) (h : acc.2 = true) : (scanPairs f ps acc).2 = true := by
  induction ps generalizing acc with
  | nil => exact h
  | cons p ps ih =>
    rw [scanPairs_cons]
    apply ih
    unfold passStep
    split
    · rfl
    · exact h

theorem scanPairs_no_improve {f : Mat α → Nat → Nat → Mat α} {ps : List (Nat × Nat)}
    {acc : Mat α × Bool} {N : Mat α} (h : scanPairs f ps acc = (N, false)) :
    acc.2 = false ∧ N = acc.1 ∧ ∀ p ∈ ps, greater (f acc.1 p.1 p.2) acc.1 = false := by
  induction ps generalizing acc with
  | nil =>
    rw [scanPairs_nil] at h
    exact ⟨by rw [h], by rw [h], fun p hp => absurd hp (List.not_mem_nil p)⟩
  | cons p ps ih =>
    rw [scanPairs_cons] at h
    by_cases hg : greater (f acc.1 p.1 p.2) acc.1 = true
    · exfalso
      have hstep : passStep f acc p = (f acc.1 p.1 p.2, true) := by
        unfold passStep; rw [if_pos hg]
      rw [hstep] at h
      have hm := scanPairs_flag_mono f ps (f acc.1 p.1 p.2, true) rfl
      rw [h] at hm
      exact Bool.false_ne_true hm
    · have hstep : passStep f acc p = acc := by
        unfold passStep; rw [if_neg hg]
      rw [hstep] at h
      obtain ⟨h1, h2, h3⟩ := ih h
      refine ⟨h1, h2, fun q hq => ?_⟩
      rcases List.mem_cons.mp hq with rfl | hq2
      · exact Bool.eq_false_iff.mpr hg
      · exact h3 q hq2

theorem scanPairs_inv {f : Mat α → Nat → Nat → Mat α} (Inv : Mat α → Prop)
    (hf : ∀ (N : Mat α) (i j : Nat), Inv N → Inv (f N i j)) (ps : List (Nat × Nat))
    (acc : Mat α × Bool) (h : Inv acc.1) : Inv (scanPairs f ps acc).1 := by
  induction ps generalizing acc with
  | nil => exact h
  | cons p ps ih =>
    rw [scanPairs_cons]
    apply ih
    unfold passStep
    split
    · exact hf acc.1 p.1 p.2 h
    · exact h

theorem scanPairs_perm {f : Mat α → Nat → Nat → Mat α}
    (hf : ∀ (N : Mat α) (i j : Nat), List.Perm (flatten (f N i j)) (flatten N))
    (ps : List (Nat × Nat)) (acc : Mat α × Bool) :
    List.Perm (flatten (scanPairs f ps acc).1) (flatten acc.1) := by
  induction ps generalizing acc with
  | nil => exact List.Perm.refl _
  | cons p ps ih =>
    rw [scanPairs_cons]
    refine (ih (passStep f acc p)).trans ?_
    unfold passStep
    split
    · exact hf acc.1 p.1 p.2
    · exact List.Perm.refl _

theorem scanPairs_progress {f : Mat α → Nat → Nat → Mat α}
    (hf : ∀ (N : Mat α) (i j : Nat), List.Perm (flatten (f N i j)) (flatten N))
    (ps : List (Nat × Nat)) (acc : Mat α × Bool) :
    (scanPairs f ps acc).1 = acc.1 ∨
      lexGtFlat (flatten (scanPairs f ps acc).1) (flatten acc.1) = true := by
  induction ps generalizing acc with
  | nil => exact Or.inl rfl
  | cons p ps ih =>
    rw [scanPairs_cons]
    by_cases hg : greater (f acc.1 p.1 p.2) acc.1 = true
    · have hstep : passStep f acc p = (f acc.1 p.1 p.2, true) := by
        unfold passStep; rw [if_pos hg]
      rw [hstep]
      rcases ih (f acc.1 p.1 p.2, true) with h | h
      · right; rw [h]; exact hg
      · right
        refine lexGtFlat_trans ?_ ?_ h hg
        · exact (scanPairs_perm hf ps (f acc.1 p.1 p.2, true)).length_eq
        · exact (hf acc.1 p.1 p.2).length_eq
    · have hstep : passStep f acc p = acc := by
        unfold passStep; rw [if_neg hg]
      rw [hstep]
      exact ih acc

theorem scanPairs_strict {f : Mat α → Nat → Nat → Mat α}
    (hf : ∀ (N : Mat α) (i j : Nat), List.Perm (flatten (f N i j)) (flatten N))
    (ps : List (Nat × Nat)) (M : Mat α)
    (h : (scanPairs f ps (M, false)).2 = true) :
    lexGtFlat (flatten (scanPairs f ps (M, false)).1) (flatten M) = true := by
  induction ps generalizing M with
  | nil => rw [scanPairs_nil] at h; exact absurd h Bool.false_ne_true
  | cons p ps ih =>
    rw [scanPairs_cons] at h ⊢
    by_cases hg : greater (f M p.1 p.2) M = true
    · have hstep : passStep f (M, false) p = (f M p.1 p.2, true) := by
        unfold passStep; rw [if_pos hg]
      rw [hstep] at h ⊢
      rcases scanPairs_progress hf ps (f M p.1 p.2, true) with h2 | h2
      · rw [h2]; exact hg
      · refine lexGtFlat_trans ?_ ?_ h2 hg
        · exact (scanPairs_perm hf ps (f M p.1 p.2, true)).length_eq
        · exact (hf M p.1 p.2).length_eq
    · have hstep : passStep f (M, false) p = (M, false) := by
        unfold passStep; rw [if_neg hg]
      rw [hstep] at h ⊢
      exact ih M h

/-! Lemmas about a full pass of the while-loop body. -/

theorem fullPass_perm (r c : Nat) (M : Mat α) :
    List.Perm (flatten (fullPass r c M).1) (flatten M) := by
  unfold fullPass
  exact (scanPairs_perm flatten_swap_cols_perm (pairs c) _).trans
    (scanPairs_perm flatten_swap_rows_perm (pairs r) (M, false))

theorem fullPass_strict (r c : Nat) (M : Mat α) (h : (fullPass r c M).2 = true) :
    lexGtFlat (flatten (fullPass r c M).1) (flatten M) = true := by
  rcases hrow : scanPairs swap_rows (pairs r) ((M : Mat α), false) with ⟨A, b⟩
  have hfp : fullPass r c M = scanPairs swap_cols (pairs c) (A, b) := by
    unfold fullPass; rw [hrow]
  cases b with
  | true =>
    have h1 : lexGtFlat (flatten A) (flatten M) = true := by
      have h2 := scanPairs_strict flatten_swap_rows_perm (pairs r) M (by rw [hrow])
      rwa [hrow] at h2
    have hAM : List.Perm (flatten A) (flatten M) := by
      have h3 := scanPairs_perm flatten_swap_rows_perm (pairs r) ((M : Mat α), false)
      rwa [hrow] at h3
    rw [hfp]
    rcases scanPairs_progress flatten_swap_cols_perm (pairs c) ((A : Mat α), true) with h2 | h2
    · rw [h2]; exact h1
    · refine lexGtFlat_trans ?_ ?_ h2 h1
      · exact (scanPairs_perm flatten_swap_cols_perm (pairs c) ((A : Mat α), true)).length_eq
      · exact hAM.length_eq
  | false =>
    obtain ⟨_, hAM, _⟩ := scanPairs_no_improve hrow
    rw [hfp, hAM] at h ⊢
    exact scanPairs_strict flatten_swap_cols_perm (pairs c) M h

theorem fullPass_no_improve {r c : Nat} {M : Mat α} (h : (fullPass r c M).2 = false) :
    (fullPass r c M).1 = M
    ∧ (∀ p ∈ pairs r, greater (swap_rows M p.1 p.2) M = false)
    ∧ (∀ p ∈ pairs c, greater (swap_cols M p.1 p.2) M = false) := by
  rcases hrow : scanPairs swap_rows (pairs r) ((M : Mat α), false) with ⟨A, b⟩
  have hfp : fullPass r c M = scanPairs swap_cols (pairs c) (A, b) := by
    unfold fullPass; rw [hrow]
  have hcol : scanPairs swap_cols (pairs c) (A, b) = ((fullPass r c M).1, false) := by
    rw [← hfp, ← h]
  obtain ⟨hb, hN, hcols⟩ := scanPairs_no_improve hcol
  cases b with
  | true => simp at hb
  | false =>
    obtain ⟨_, hAM2, hrows⟩ := scanPairs_no_improve hrow
    subst hAM2
    exact ⟨hN, hrows, hcols⟩

/-! Shape invariants through a full pass, and lemmas about the fueled loop. -/

theorem swap_rows_shape_inv {r0 c0 : Nat} (N : Mat α) (i j : Nat)
    (h : Rect N ∧ nRows N = r0 ∧ nCols N = c0) :
    Rect (swap_rows N i j) ∧ nRows (swap_rows N i j) = r0 ∧ nCols (swap_rows N i j) = c0 :=
  ⟨rect_swap_rows h.1 i j, by rw [nRows_swap_rows, h.2.1],
    by rw [nCols_swap_rows h.1, h.2.2]⟩

theorem swap_cols_shape_inv {r0 c0 : Nat} (N : Mat α) (i j : Nat)
    (h : Rect N ∧ nRows N = r0 ∧ nCols N = c0) :
    Rect (swap_cols N i j) ∧ nRows (swap_cols N i j) = r0 ∧ nCols (swap_cols N i j) = c0 :=
  ⟨rect_swap_cols h.1 i j, by rw [nRows_swap_cols, h.2.1],
    by rw [nCols_swap_cols, h.2.2]⟩

theorem fullPass_shape {r c r0 c0 : Nat} {M : Mat α}
    (h : Rect M ∧ nRows M = r0 ∧ nCols M = c0) :
    Rect (fullPass r c M).1 ∧ nRows (fullPass r c M).1 = r0 ∧ nCols (fullPass r c M).1 = c0 := by
  unfold fullPass
  refine scanPairs_inv (fun N => Rect N ∧ nRows N = r0 ∧ nCols N = c0)
    (fun N i j hN => swap_cols_shape_inv N i j hN) _ _ ?_
  exact scanPairs_inv (fun N => Rect N ∧ nRows N = r0 ∧ nCols N = c0)
    (fun N i j hN => swap_rows_shape_inv N i j hN) _ _ h

theorem maximiseAux_zero (r c : Nat) (M : Mat α) : maximiseAux r c 0 M = none := rfl

theorem maximiseAux_succ (r c fuel : Nat) (M : Mat α) :
    maximiseAux r c (fuel + 1) M =
      if (fullPass r c M).2 then maximiseAux r c fuel (fullPass r c M).1
      else some (fullPass r c M).1 := rfl

theorem maximiseAux_final {r c : Nat} : ∀ {fuel : Nat} {M M2 : Mat α},
    maximiseAux r c fuel M = some M2 → fullPass r c M2 = (M2, false) := by
  intro fuel
  induction fuel with
  | zero =>
    intro M M2 h
    rw [maximiseAux_zero] at h
    exact absurd h (by simp)
  | succ n ih =>
    intro M M2 h
    rw [maximiseAux_succ] at h
    by_cases hp : (fullPass r c M).2 = true
    · rw [if_pos hp] at h
      exact ih h
    · rw [if_neg hp] at h
      have hb : (fullPass r c M).2 = false := Bool.eq_false_iff.mpr hp
      obtain ⟨h1, _, _⟩ := fullPass_no_improve hb
      have hM2 : M2 = M := by
        rw [h1] at h
        exact (Option.some_inj.mp h).symm
      subst hM2
      exact Prod.ext h1 hb

theorem maximiseAux_perm {r c : Nat} : ∀ {fuel : Nat} {M M2 : Mat α},
    maximiseAux r c fuel M = some M2 → List.Perm (flatten M2) (flatten M) := by
  intro fuel
  induction fuel with
  | zero =>
    intro M M2 h
    rw [maximiseAux_zero] at h
    exact absurd h (by simp)
  | succ n ih =>
    intro M M2 h
    rw [maximiseAux_succ] at h
    by_cases hp : (fullPass r c M).2 = true
    · rw [if_pos hp] at h
      exact (ih h).trans (fullPass_perm r c M)
    · rw [if_neg hp] at h
      obtain ⟨h1, _, _⟩ := fullPass_no_improve (Bool.eq_false_iff.mpr hp)
      rw [h1] at h
      rw [← Option.some_inj.mp h]

theorem maximiseAux_shape {r c r0 c0 : Nat} : ∀ {fuel : Nat} {M M2 : Mat α},
    (Rect M ∧ nRows M = r0 ∧ nCols M = c0) →
    maximiseAux r c fuel M = some M2 →
    Rect M2 ∧ nRows M2 = r0 ∧ nCols M2 = c0 := by
  intro fuel
  induction fuel with
  | zero =>
    intro M M2 _ h
    rw [maximiseAux_zero] at h
    exact absurd h (by simp)
  | succ n ih =>
    intro M M2 hM h
    rw [maximiseAux_succ] at h
    by_cases hp : (fullPass r c M).2 = true
    · rw [if_pos hp] at h
      exact ih (fullPass_shape hM) h
    · rw [if_neg hp] at h
      obtain ⟨h1, _, _⟩ := fullPass_no_improve (Bool.eq_false_iff.mpr hp)
      rw [h1] at h
      rw [← Option.some_inj.mp h]
      exact hM

/-! Termination: every improving pass strictly decreases lexMeasure. -/

theorem countP_lt_of_witness {β : Type} {l : List β} {p q : β → Bool}
    (hpq : ∀ x ∈ l, p x = true → q x = true) {x0 : β} (hx : x0 ∈ l)
    (hq : q x0 = true) (hp : p x0 = false) :
    List.countP p l < List.countP q l := by
  induction l with
  | nil => exact absurd hx (List.not_mem_nil x0)
  | cons a t ih =>
    rw [List.countP_cons, List.countP_cons]
    have hmono : List.countP p t ≤ List.countP q t :=
      List.countP_mono_left (fun x hxt h => hpq x (List.mem_cons_of_mem a hxt) h)
    rcases List.mem_cons.mp hx with rfl | hx2
    · rw [hp, hq]
      simp only [Bool.false_eq_true, if_false, if_true]
      omega
    · have hlt := ih (fun x hxt h => hpq x (List.mem_cons_of_mem a hxt) h) hx2
      have hhead : (if p a = true then 1 else 0) ≤ (if q a = true then 1 else 0) := by
        by_cases h : p a = true
        · rw [if_pos h, if_pos (hpq a (List.mem_cons_self a t) h)]
        · rw [if_neg h]
          omega
      omega

theorem lexMeasure_lt {N N2 : Mat α} (hperm : List.Perm (flatten N2) (flatten N))
    (hgt : lexGtFlat (flatten N2) (flatten N) = true) : lexMeasure N2 < lexMeasure N := by
  unfold lexMeasure
  have h1 : ((flatten N2).permutations).countP (fun g => lexGtFlat g (flatten N2))
      = ((flatten N).permutations).countP (fun g => lexGtFlat g (flatten N2)) :=
    List.Perm.countP_eq _ (hperm.permutations)
  rw [h1]
  refine countP_lt_of_witness ?_ ?_ hgt (lexGtFlat_self (flatten N2))
  · intro g hg h
    have hgN : List.Perm g (flatten N) := List.mem_permutations.mp hg
    refine lexGtFlat_trans ?_ ?_ h hgt
    · rw [hgN.length_eq, hperm.length_eq]
    · exact hperm.length_eq
  · exact List.mem_permutations.mpr hperm

theorem maximiseAux_isSome (r c : Nat) :
    ∀ (fuel : Nat) (N : Mat α), lexMeasure N < fuel →
      (maximiseAux r c fuel N).isSome = true := by
  intro fuel
  induction fuel with
  | zero => intro N h; omega
  | succ n ih =>
    intro N h
    rw [maximiseAux_succ]
    by_cases hp : (fullPass r c N).2 = true
    · rw [if_pos hp]
      refine ih _ ?_
      have hlt := lexMeasure_lt (fullPass_perm r c N) (fullPass_strict r c N hp)
      omega
    · rw [if_neg hp]
      rfl

theorem lexMeasure_lt_fuelFor (M : Mat α) : lexMeasure M < fuelFor M := by
  unfold lexMeasure fuelFor
  have h1 := @List.countP_le_length (List α) (fun g => lexGtFlat g (flatten M))
    ((flatten M).permutations)
  have h2 := List.length_permutations (flatten M)
  omega

theorem maximiseAux_fuelFor_isSome (M : Mat α) :
    (maximiseAux (nRows M) (nCols M) (fuelFor M) M).isSome = true :=
  maximiseAux_isSome (nRows M) (nCols M) (fuelFor M) M (lexMeasure_lt_fuelFor M)

theorem maximise_matrix_spec (M : Mat α) :
    maximiseAux (nRows M) (nCols M) (fuelFor M) M = some (maximise_matrix M) := by
  obtain ⟨M2, hM2⟩ := Option.isSome_iff_exists.mp (maximiseAux_fuelFor_isSome M)
  rw [hM2]
  unfold maximise_matrix
  rw [hM2]
  rfl

theorem maximise_matrix_final (M : Mat α) :
    fullPass (nRows M) (nCols M) (maximise_matrix M) = (maximise_matrix M, false) :=
  maximiseAux_final (maximise_matrix_spec M)

theorem maximise_matrix_perm (M : Mat α) :
    List.Perm (flatten (maximise_matrix M)) (flatten M) :=
  maximiseAux_perm (maximise_matrix_spec M)

theorem maximise_matrix_shape {M : Mat α} (h : Rect M) :
    Rect (maximise_matrix M) ∧ nRows (maximise_matrix M) = nRows M
      ∧ nCols (maximise_matrix M) = nCols M :=
  maximiseAux_shape ⟨h, rfl, rfl⟩ (maximise_matrix_spec M)

theorem maximiseAux_fix {r c : Nat} {M : Mat α} (h : fullPass r c M = (M, false))
    (fuel : Nat) : maximiseAux r c (fuel + 1) M = some M := by
  rw [maximiseAux_succ, h]
  rfl

theorem maximise_matrix_of_fix {M : Mat α}
    (h : fullPass (nRows M) (nCols M) M = (M, false)) : maximise_matrix M = M := by
  unfold maximise_matrix fuelFor
  rw [maximiseAux_fix h]
  rfl

theorem maximise_matrix_idem {M : Mat α} (h : Rect M) :
    maximise_matrix (maximise_matrix M) = maximise_matrix M := by
  obtain ⟨_, hr, hc⟩ := maximise_matrix_shape h
  apply maximise_matrix_of_fix
  rw [hr, hc]
  exact maximise_matrix_final M

/-! Helper lemmas for the claim theorems. -/

theorem mem_pairs {n : Nat} {p : Nat × Nat} : p ∈ pairs n ↔ p.1 < p.2 ∧ p.2 < n := by
  unfold pairs
  rw [List.mem_flatMap]
  constructor
  · rintro ⟨i, hi, hmem⟩
    rw [List.mem_map] at hmem
    obtain ⟨j, hj, rfl⟩ := hmem
    rw [List.mem_filter, List.mem_range] at hj
    obtain ⟨hjn, hij⟩ := hj
    exact ⟨by simpa using hij, hjn⟩
  · rintro ⟨h1, h2⟩
    refine ⟨p.1, List.mem_range.mpr (lt_trans h1 h2), ?_⟩
    rw [List.mem_map]
    refine ⟨p.2, ?_, rfl⟩
    rw [List.mem_filter, List.mem_range]
    exact ⟨h2, by simpa using h1⟩

theorem swap_rows_self (M : Mat α) (i : Nat) : swap_rows M i i = M := swapList_self M i

theorem swap_cols_self (M : Mat α) (i : Nat) : swap_cols M i i = M := by
  unfold swap_cols
  rw [List.map_congr_left (fun r _ => swapList_self r i)]
  exact List.map_id M

theorem swap_rows_symm (M : Mat α) (i j : Nat) : swap_rows M i j = swap_rows M j i :=
  swapList_symm M i j

theorem swap_cols_symm (M : Mat α) (i j : Nat) : swap_cols M i j = swap_cols M j i :=
  List.map_congr_left (fun r _ => swapList_symm r i j)

theorem greater_eq_true_iff (A B : Mat α) :
    greater A B = true ↔ lexGtSpec (flatten A) (flatten B) :=
  lexGtFlat_iff_spec (flatten A) (flatten B)

theorem greater_eq_false_iff (A B : Mat α) :
    greater A B = false ↔ ¬ lexGtSpec (flatten A) (flatten B) := by
  rw [Bool.eq_false_iff, Ne, greater_eq_true_iff]

theorem maximise_matrix_local_rows {M : Mat α} {i j : Nat}
    (hi : i < nRows M) (hj : j < nRows M) :
    greater (swap_rows (maximise_matrix M) i j) (maximise_matrix M) = false := by
  have hb : (fullPass (nRows M) (nCols M) (maximise_matrix M)).2 = false := by
    rw [maximise_matrix_final M]
  obtain ⟨_, hrows, _⟩ := fullPass_no_improve hb
  rcases lt_trichotomy i j with h | h | h
  · exact hrows (i, j) (mem_pairs.mpr ⟨h, hj⟩)
  · subst h
    rw [swap_rows_self]
    exact lexGtFlat_self _
  · rw [swap_rows_symm]
    exact hrows (j, i) (mem_pairs.mpr ⟨h, hi⟩)

theorem maximise_matrix_local_cols {M : Mat α} {i j : Nat}
    (hi : i < nCols M) (hj : j < nCols M) :
    greater (swap_cols (maximise_matrix M) i j) (maximise_matrix M) = false := by
  have hb : (fullPass (nRows M) (nCols M) (maximise_matrix M)).2 = false := by
    rw [maximise_matrix_final M]
  obtain ⟨_, _, hcols⟩ := fullPass_no_improve hb
  rcases lt_trichotomy i j with h | h | h
  · exact hcols (i, j) (mem_pairs.mpr ⟨h, hj⟩)
  · subst h
    rw [swap_cols_self]
    exact lexGtFlat_self _
  · rw [swap_cols_symm]
    exact hcols (j, i) (mem_pairs.mpr ⟨h, hi⟩)

theorem scanPairs_id {f : Mat α → Nat → Nat → Mat α} {ps : List (Nat × Nat)} {M : Mat α}
    (h : ∀ p ∈ ps, greater (f M p.1 p.2) M = false) :
    scanPairs f ps (M, false) = (M, false) := by
  induction ps with
  | nil => rfl
  | cons p ps ih =>
    rw [scanPairs_cons]
    have hstep : passStep f ((M : Mat α), false) p = (M, false) := by
      unfold passStep
      rw [if_neg (by simp [h p (List.mem_cons_self p ps)])]
    rw [hstep]
    exact ih (fun q hq => h q (List.mem_cons_of_mem p hq))

theorem flatten_eq_nil_of_zero_cols {M : Mat α} (hR : Rect M) (hc : nCols M = 0) :
    flatten M = [] := by
  unfold flatten
  rw [List.flatten_eq_nil_iff]
  intro r hr
  rw [← List.length_eq_zero, hR r hr, hc]

/-! Frame lemmas for the state-passing embedding: no call mutates a
previously allocated cell, in particular not the caller array. -/

theorem storeExtends_refl (s : Store α) : storeExtends s s :=
  ⟨le_refl _, fun _ _ => rfl⟩

theorem storeExtends_trans {s t u : Store α} (h1 : storeExtends s t)
    (h2 : storeExtends t u) : storeExtends s u :=
  ⟨le_trans h1.1 h2.1, fun k hk => (h2.2 k (lt_of_lt_of_le hk h1.1)).trans (h1.2 k hk)⟩

theorem readS_append (s : Store α) (x : Mat α) {k : Nat} (hk : k < sizeS s) :
    readS (s ++ [x]) k = readS s k := by
  unfold readS
  rw [List.getElem?_append, if_pos (show k < List.length s from hk)]

theorem readS_set_ne (s : Store α) (a : Nat) (M : Mat α) {k : Nat} (hk : a ≠ k) :
    readS (writeS s a M) k = readS s k := by
  unfold readS writeS
  rw [List.getElem?_set_ne hk]

theorem readS_concat_self (s : Store α) (x : Mat α) : readS (s ++ [x]) (sizeS s) = x := by
  unfold readS sizeS
  rw [List.getElem?_concat_length]
  rfl

theorem swapRowsProg_extends (s : Store α) (m i j : Nat) :
    storeExtends s (swapRowsProg s m i j).1 ∧ (swapRowsProg s m i j).2 = sizeS s := by
  refine ⟨⟨?_, ?_⟩, rfl⟩
  · show sizeS s ≤ sizeS (writeS (s ++ [readS s m]) (sizeS s) _)
    simp [writeS, sizeS]
  · intro k hk
    show readS (writeS (s ++ [readS s m]) (sizeS s) _) k = readS s k
    rw [readS_set_ne _ _ _ (ne_of_gt hk), readS_append _ _ hk]

theorem swapColsProg_extends (s : Store α) (m i j : Nat) :
    storeExtends s (swapColsProg s m i j).1 ∧ (swapColsProg s m i j).2 = sizeS s := by
  refine ⟨⟨?_, ?_⟩, rfl⟩
  · show sizeS s ≤ sizeS (writeS (s ++ [readS s m]) (sizeS s) _)
    simp [writeS, sizeS]
  · intro k hk
    show readS (writeS (s ++ [readS s m]) (sizeS s) _) k = readS s k
    rw [readS_set_ne _ _ _ (ne_of_gt hk), readS_append _ _ hk]

theorem swapRowsProg_value (s : Store α) (m i j : Nat) :
    readS (swapRowsProg s m i j).1 (swapRowsProg s m i j).2 = swap_rows (readS s m) i j := by
  show readS (writeS (s ++ [readS s m]) (sizeS s)
    (swapList (readS (s ++ [readS s m]) (sizeS s)) i j)) (sizeS s) = _
  rw [readS_concat_self]
  unfold readS writeS
  rw [List.getElem?_set_eq_of_lt]
  · rfl
  · simp [sizeS]

theorem swapColsProg_value (s : Store α) (m i j : Nat) :
    readS (swapColsProg s m i j).1 (swapColsProg s m i j).2 = swap_cols (readS s m) i j := by
  show readS (writeS (s ++ [readS s m]) (sizeS s)
    ((readS (s ++ [readS s m]) (sizeS s)).map (fun row => swapList row i j))) (sizeS s) = _
  rw [readS_concat_self]
  unfold readS writeS
  rw [List.getElem?_set_eq_of_lt]
  · rfl
  · simp [sizeS]

theorem passStepProg_extends {f : Store α → Nat → Nat → Nat → Store α × Nat}
    (hf : ∀ (t : Store α) (m i j : Nat), storeExtends t (f t m i j).1)
    (acc : Store α × Nat × Bool) (p : Nat × Nat) :
    storeExtends acc.1 (passStepProg f acc p).1 := by
  simp only [passStepProg]
  split
  · exact storeExtends_trans (hf acc.1 acc.2.1 p.1 p.2) (hf _ acc.2.1 p.1 p.2)
  · exact hf acc.1 acc.2.1 p.1 p.2

theorem foldl_passStepProg_extends {f : Store α → Nat → Nat → Nat → Store α × Nat}
    (hf : ∀ (t : Store α) (m i j : Nat), storeExtends t (f t m i j).1) :
    ∀ (ps : List (Nat × Nat)) (acc : Store α × Nat × Bool),
      storeExtends acc.1 (ps.foldl (passStepProg f) acc).1 := by
  intro ps
  induction ps with
  | nil => intro acc; exact storeExtends_refl _
  | cons p ps ih =>
    intro acc
    rw [List.foldl_cons]
    exact storeExtends_trans (passStepProg_extends hf acc p) (ih _)

theorem fullPassProg_extends (r c : Nat) (s : Store α) (m : Nat) :
    storeExtends s (fullPassProg r c s m).1 := by
  unfold fullPassProg
  have h1 := foldl_passStepProg_extends (fun t m2 i j => (swapRowsProg_extends t m2 i j).1)
    (pairs r) ((s : Store α), m, false)
  have h2 := foldl_passStepProg_extends (fun t m2 i j => (swapColsProg_extends t m2 i j).1)
    (pairs c) ((pairs r).foldl (passStepProg swapRowsProg) (s, m, false))
  exact storeExtends_trans h1 h2

theorem maximiseProgAux_succ (r c fuel : Nat) (s : Store α) (m : Nat) :
    maximiseProgAux r c (fuel + 1) s m =
      if (fullPassProg r c s m).2.2 then
        maximiseProgAux r c fuel (fullPassProg r c s m).1 (fullPassProg r c s m).2.1
      else ((fullPassProg r c s m).1, (fullPassProg r c s m).2.1) := rfl

theorem maximiseProgAux_extends (r c : Nat) :
    ∀ (fuel : Nat) (s : Store α) (m : Nat), storeExtends s (maximiseProgAux r c fuel s m).1 := by
  intro fuel
  induction fuel with
  | zero => intro s m; exact storeExtends_refl s
  | succ n ih =>
    intro s m
    rw [maximiseProgAux_succ]
    split
    · exact storeExtends_trans (fullPassProg_extends r c s m) (ih _ _)
    · exact fullPassProg_extends r c s m

theorem maximiseProg_extends (s : Store α) (m : Nat) : storeExtends s (maximiseProg s m).1 :=
  maximiseProgAux_extends _ _ _ s m

/-! Degenerate inputs: the code performs no validation and returns them
unchanged. -/

theorem maximise_matrix_degenerate (M : Mat α) (hR : Rect M)
    (h : nRows M = 0 ∨ nCols M = 0) : maximise_matrix M = M := by
  have hflat : flatten M = [] := by
    rcases h with h | h
    · have hnil : M = [] := List.length_eq_zero.mp h
      rw [hnil]
      rfl
    · exact flatten_eq_nil_of_zero_cols hR h
  have hg : ∀ X : Mat α, greater X M = false := by
    intro X
    show lexGtFlat (flatten X) (flatten M) = false
    rw [hflat]
    exact lexGtFlat_nil_right _
  apply maximise_matrix_of_fix
  unfold fullPass
  rw [scanPairs_id (fun p _ => hg _), scanPairs_id (fun p _ => hg _)]

/-! The claim theorems. -/

/-- C1: for every rectangular matrix with at least one row and one column,
the output of maximise_matrix is a local maximum: no single row swap and no
single column swap of the output yields a lexicographically greater
row-major flattening, and consequently maximise_matrix is idempotent. -/
theorem C1_local_maximum_idempotent (M : Mat α) (hR : Rect M)
    (_hr : 0 < nRows M) (_hc : 0 < nCols M) :
    (∀ i j : Nat, i < nRows M → j < nRows M →
      ¬ lexGtSpec (flatten (swap_rows (maximise_matrix M) i j)) (flatten (maximise_matrix M)))
    ∧ (∀ i j : Nat, i < nCols M → j < nCols M →
      ¬ lexGtSpec (flatten (swap_cols (maximise_matrix M) i j)) (flatten (maximise_matrix M)))
    ∧ maximise_matrix (maximise_matrix M) = maximise_matrix M := by
  refine ⟨fun i j hi hj => ?_, fun i j hi hj => ?_, maximise_matrix_idem hR⟩
  · exact (greater_eq_false_iff _ _).mp (maximise_matrix_local_rows hi hj)
  · exact (greater_eq_false_iff _ _).mp (maximise_matrix_local_cols hi hj)

/-- Witness for C1 at a concrete rectangular matrix. -/
theorem C1_witness :
    (Rect ([[1, 2], [4, 3]] : Mat Int) ∧ 0 < nRows ([[1, 2], [4, 3]] : Mat Int)
      ∧ 0 < nCols ([[1, 2], [4, 3]] : Mat Int))
    ∧ ((∀ i j : Nat, i < nRows ([[1, 2], [4, 3]] : Mat Int) →
          j < nRows ([[1, 2], [4, 3]] : Mat Int) →
          ¬ lexGtSpec (flatten (swap_rows (maximise_matrix ([[1, 2], [4, 3]] : Mat Int)) i j))
            (flatten (maximise_matrix ([[1, 2], [4, 3]] : Mat Int))))
      ∧ (∀ i j : Nat, i < nCols ([[1, 2], [4, 3]] : Mat Int) →
          j < nCols ([[1, 2], [4, 3]] : Mat Int) →
          ¬ lexGtSpec (flatten (swap_cols (maximise_matrix ([[1, 2], [4, 3]] : Mat Int)) i j))
            (flatten (maximise_matrix ([[1, 2], [4, 3]] : Mat Int))))
      ∧ maximise_matrix (maximise_matrix ([[1, 2], [4, 3]] : Mat Int))
          = maximise_matrix ([[1, 2], [4, 3]] : Mat Int)) :=
  ⟨⟨by decide, by decide, by decide⟩,
    C1_local_maximum_idempotent [[1, 2], [4, 3]] (by decide) (by decide) (by decide)⟩

/-- C2 counterexample: on the documented worked example input the code does
not return the documented matrix [[3,1,0],[1,1,2],[0,0,0]] (the global
lexicographic maximum); it stops in the distinct local maximum
[[2,1,1],[0,3,1],[0,0,0]]. -/
theorem C2_counterexample :
    maximise_matrix ([[0, 0, 0], [0, 1, 3], [2, 1, 1]] : Mat Int)
        = [[2, 1, 1], [0, 3, 1], [0, 0, 0]]
    ∧ maximise_matrix ([[0, 0, 0], [0, 1, 3], [2, 1, 1]] : Mat Int)
        ≠ [[3, 1, 0], [1, 1, 2], [0, 0, 0]] := by
  decide

/-- C2 amended: the example input converges to [[2,1,1],[0,3,1],[0,0,0]],
reached via at least one accepted row swap (three) and at least one
accepted column swap (one). -/
theorem C2_concrete_scenario :
    maximise_matrix ([[0, 0, 0], [0, 1, 3], [2, 1, 1]] : Mat Int)
        = [[2, 1, 1], [0, 3, 1], [0, 0, 0]]
    ∧ ∃ nr nc : Nat,
        maximiseCnt ([[0, 0, 0], [0, 1, 3], [2, 1, 1]] : Mat Int)
          = some ([[2, 1, 1], [0, 3, 1], [0, 0, 0]], nr, nc) ∧ 1 ≤ nr ∧ 1 ≤ nc :=
  ⟨by decide, 3, 1, by decide, by decide, by decide⟩

/-- C3: for equally shaped matrices, greater(A, B) is true exactly when the
first position where the row-major flattenings differ has the entry of A
exceeding the entry of B, and it is false on entry-wise identical inputs. -/
theorem C3_greater_first_difference (A B : Mat α) (_hrows : nRows A = nRows B)
    (_hcols : nCols A = nCols B) (_hA : Rect A) (_hB : Rect B) :
    (greater A B = true ↔ lexGtSpec (flatten A) (flatten B))
    ∧ (flatten A = flatten B → greater A B = false) := by
  refine ⟨greater_eq_true_iff A B, fun h => ?_⟩
  show lexGtFlat (flatten A) (flatten B) = false
  rw [h]
  exact lexGtFlat_self _

/-- Witness for C3 at two concrete equally shaped matrices. -/
theorem C3_witness :
    (nRows ([[1, 2], [3, 4]] : Mat Int) = nRows ([[1, 2], [2, 9]] : Mat Int)
      ∧ nCols ([[1, 2], [3, 4]] : Mat Int) = nCols ([[1, 2], [2, 9]] : Mat Int)
      ∧ Rect ([[1, 2], [3, 4]] : Mat Int) ∧ Rect ([[1, 2], [2, 9]] : Mat Int))
    ∧ ((greater ([[1, 2], [3, 4]] : Mat Int) [[1, 2], [2, 9]] = true
        ↔ lexGtSpec (flatten ([[1, 2], [3, 4]] : Mat Int)) (flatten ([[1, 2], [2, 9]] : Mat Int)))
      ∧ (flatten ([[1, 2], [3, 4]] : Mat Int) = flatten ([[1, 2], [2, 9]] : Mat Int)
        → greater ([[1, 2], [3, 4]] : Mat Int) [[1, 2], [2, 9]] = false)) :=
  ⟨⟨by decide, by decide, by decide, by decide⟩,
    C3_greater_first_difference [[1, 2], [3, 4]] [[1, 2], [2, 9]]
      (by decide) (by decide) (by decide) (by decide)⟩

/-- C4: maximise_matrix preserves the dimensions and the multiset of
entries of every valid (rectangular) input matrix. -/
theorem C4_shape_multiset_preserved (M : Mat α) (hR : Rect M) :
    nRows (maximise_matrix M) = nRows M ∧ nCols (maximise_matrix M) = nCols M
    ∧ (flatten (maximise_matrix M) : Multiset α) = (flatten M : Multiset α) := by
  obtain ⟨_, h1, h2⟩ := maximise_matrix_shape hR
  exact ⟨h1, h2, Multiset.coe_eq_coe.mpr (maximise_matrix_perm M)⟩

/-- Witness for C4 at a concrete matrix. -/
theorem C4_witness :
    Rect ([[0, 5], [7, 1]] : Mat Int)
    ∧ (nRows (maximise_matrix ([[0, 5], [7, 1]] : Mat Int)) = nRows ([[0, 5], [7, 1]] : Mat Int)
      ∧ nCols (maximise_matrix ([[0, 5], [7, 1]] : Mat Int)) = nCols ([[0, 5], [7, 1]] : Mat Int)
      ∧ (flatten (maximise_matrix ([[0, 5], [7, 1]] : Mat Int)) : Multiset Int)
          = (flatten ([[0, 5], [7, 1]] : Mat Int) : Multiset Int)) :=
  ⟨by decide, C4_shape_multiset_preserved [[0, 5], [7, 1]] (by decide)⟩

/-- C5: maximise_matrix terminates on every matrix: the factorial fuel
bound always suffices (first conjunct, and the returned value is exactly
maximise_matrix); every improving pass strictly increases the flattened
matrix lexicographically (second conjunct); and the loop exits as soon as
one full pass accepts no swap (third conjunct). -/
theorem C5_termination :
    (∀ M : Mat α, ∃ M2 : Mat α,
        maximiseAux (nRows M) (nCols M) (fuelFor M) M = some M2 ∧ maximise_matrix M = M2)
    ∧ (∀ (r c : Nat) (M : Mat α), (fullPass r c M).2 = true →
        lexGtFlat (flatten (fullPass r c M).1) (flatten M) = true)
    ∧ (∀ (r c fuel : Nat) (M : Mat α), (fullPass r c M).2 = false →
        maximiseAux r c (fuel + 1) M = some M) := by
  refine ⟨fun M => ⟨maximise_matrix M, maximise_matrix_spec M, rfl⟩, fullPass_strict, ?_⟩
  intro r c fuel M h
  obtain ⟨h1, _, _⟩ := fullPass_no_improve h
  exact maximiseAux_fix (Prod.ext h1 h) fuel

/-- Witness for C5: the three conjuncts applied at concrete inputs. -/
theorem C5_witness :
    (∃ M2 : Mat Int,
        maximiseAux (nRows ([[0, 0, 1], [1, 0, 0], [0, 1, 0]] : Mat Int))
            (nCols ([[0, 0, 1], [1, 0, 0], [0, 1, 0]] : Mat Int))
            (fuelFor ([[0, 0, 1], [1, 0, 0], [0, 1, 0]] : Mat Int))
            [[0, 0, 1], [1, 0, 0], [0, 1, 0]] = some M2
          ∧ maximise_matrix ([[0, 0, 1], [1, 0, 0], [0, 1, 0]] : Mat Int) = M2)
    ∧ lexGtFlat (flatten (fullPass 3 3 ([[0, 0, 1], [1, 0, 0], [0, 1, 0]] : Mat Int)).1)
        (flatten ([[0, 0, 1], [1, 0, 0], [0, 1, 0]] : Mat Int)) = true
    ∧ maximiseAux 2 2 (0 + 1) ([[5, 5], [5, 5]] : Mat Int) = some [[5, 5], [5, 5]] :=
  ⟨C5_termination.1 [[0, 0, 1], [1, 0, 0], [0, 1, 0]],
    C5_termination.2.1 3 3 [[0, 0, 1], [1, 0, 0], [0, 1, 0]] (by decide),
    C5_termination.2.2 2 2 0 [[5, 5], [5, 5]] (by decide)⟩

/-- C6: maximise_matrix is not a true canonical form: the documented
example matrix and the documented global maximum are row/column
permutations of one another (explicit swap chain below), yet the procedure
sends them to different fixed points; in particular the first one is not
sent to the global lexicographic maximum of its orbit. -/
theorem C6_not_canonical :
    ([[3, 1, 0], [1, 1, 2], [0, 0, 0]] : Mat Int)
        = swap_rows (swap_rows (swap_cols ([[0, 0, 0], [0, 1, 3], [2, 1, 1]] : Mat Int) 0 2) 0 1) 1 2
    ∧ maximise_matrix ([[0, 0, 0], [0, 1, 3], [2, 1, 1]] : Mat Int)
        ≠ maximise_matrix ([[3, 1, 0], [1, 1, 2], [0, 0, 0]] : Mat Int)
    ∧ lexGtFlat (flatten ([[3, 1, 0], [1, 1, 2], [0, 0, 0]] : Mat Int))
        (flatten (maximise_matrix ([[0, 0, 0], [0, 1, 3], [2, 1, 1]] : Mat Int))) = true := by
  decide

/-- C7 counterexample: a degenerate zero-column matrix is not rejected
with any InvalidShape failure; the loop terminates at once and the input
is returned as the result (the embedding is total exactly because the
Python code returns normally here, catching its internal IndexError). -/
theorem C7_counterexample :
    maximiseAux (nRows ([[], []] : Mat Int)) (nCols ([[], []] : Mat Int))
        (fuelFor ([[], []] : Mat Int)) ([[], []] : Mat Int) = some ([[], []] : Mat Int)
    ∧ maximise_matrix ([[], []] : Mat Int) = [[], []] := by
  decide

/-- C7 amended: maximise_matrix performs no input validation; on any
rectangular matrix with zero rows or zero columns it terminates and
returns the matrix unchanged instead of failing fast. -/
theorem C7_degenerate_returned (M : Mat α) (hR : Rect M)
    (h : nRows M = 0 ∨ nCols M = 0) : maximise_matrix M = M :=
  maximise_matrix_degenerate M hR h

/-- Witness for the amended C7 at the empty matrix. -/
theorem C7_witness :
    (Rect ([] : Mat Int) ∧ (nRows ([] : Mat Int) = 0 ∨ nCols ([] : Mat Int) = 0))
    ∧ maximise_matrix ([] : Mat Int) = [] :=
  ⟨⟨by decide, Or.inl (by decide)⟩,
    C7_degenerate_returned [] (by decide) (Or.inl (by decide))⟩

/-- C8 counterexample: greater is given two matrices of different
dimensions (2 by 2 versus 4 by 1) and, far from failing with a
ShapeMismatch condition, returns the Boolean comparison of the equally
long flattenings. -/
theorem C8_counterexample :
    greater ([[9, 0], [0, 0]] : Mat Int) [[1], [2], [3], [4]] = true
    ∧ nRows ([[9, 0], [0, 0]] : Mat Int) ≠ nRows ([[1], [2], [3], [4]] : Mat Int)
    ∧ nCols ([[9, 0], [0, 0]] : Mat Int) ≠ nCols ([[1], [2], [3], [4]] : Mat Int) := by
  decide

/-- C8 amended: on differently shaped matrices whose flattenings have the
same length, greater does not fail: it returns exactly the lexicographic
comparison of the two flattened sequences. -/
theorem C8_no_shape_mismatch_failure (A B : Mat α)
    (_hlen : (flatten A).length = (flatten B).length)
    (_hshape : nRows A ≠ nRows B ∨ nCols A ≠ nCols B) :
    greater A B = true ↔ lexGtSpec (flatten A) (flatten B) :=
  greater_eq_true_iff A B

/-- Witness for the amended C8 at the 2 by 2 versus 4 by 1 example. -/
theorem C8_witness :
    ((flatten ([[9, 0], [0, 0]] : Mat Int)).length
        = (flatten ([[1], [2], [3], [4]] : Mat Int)).length
      ∧ nRows ([[9, 0], [0, 0]] : Mat Int) ≠ nRows ([[1], [2], [3], [4]] : Mat Int))
    ∧ (greater ([[9, 0], [0, 0]] : Mat Int) [[1], [2], [3], [4]] = true
      ↔ lexGtSpec (flatten ([[9, 0], [0, 0]] : Mat Int))
          (flatten ([[1], [2], [3], [4]] : Mat Int))) :=
  ⟨⟨by decide, by decide⟩,
    C8_no_shape_mismatch_failure [[9, 0], [0, 0]] [[1], [2], [3], [4]]
      (by decide) (Or.inl (by decide))⟩

/-- C9: no mutation of the caller: swap_rows, swap_cols and
maximise_matrix, run in the state-passing embedding of the numpy heap,
leave the cell of the caller array untouched; the two swap operations
return fresh addresses distinct from the argument and holding exactly the
swapped copy. -/
theorem C9_no_mutation (s : Store α) (m i j : Nat) (hm : m < sizeS s) :
    readS (swapRowsProg s m i j).1 m = readS s m
    ∧ readS (swapColsProg s m i j).1 m = readS s m
    ∧ readS (maximiseProg s m).1 m = readS s m
    ∧ (swapRowsProg s m i j).2 ≠ m
    ∧ (swapColsProg s m i j).2 ≠ m
    ∧ readS (swapRowsProg s m i j).1 (swapRowsProg s m i j).2 = swap_rows (readS s m) i j
    ∧ readS (swapColsProg s m i j).1 (swapColsProg s m i j).2 = swap_cols (readS s m) i j := by
  refine ⟨(swapRowsProg_extends s m i j).1.2 m hm, (swapColsProg_extends s m i j).1.2 m hm,
    (maximiseProg_extends s m).2 m hm, ?_, ?_,
    swapRowsProg_value s m i j, swapColsProg_value s m i j⟩
  · rw [(swapRowsProg_extends s m i j).2]
    exact ne_of_gt hm
  · rw [(swapColsProg_extends s m i j).2]
    exact ne_of_gt hm

/-- Witness for C9 at a concrete one-cell store. -/
theorem C9_witness :
    0 < sizeS ([[[1, 2], [3, 4]]] : Store Int)
    ∧ (readS (swapRowsProg ([[[1, 2], [3, 4]]] : Store Int) 0 0 1).1 0
          = readS ([[[1, 2], [3, 4]]] : Store Int) 0
      ∧ readS (swapColsProg ([[[1, 2], [3, 4]]] : Store Int) 0 0 1).1 0
          = readS ([[[1, 2], [3, 4]]] : Store Int) 0
      ∧ readS (maximiseProg ([[[1, 2], [3, 4]]] : Store Int) 0).1 0
          = readS ([[[1, 2], [3, 4]]] : Store Int) 0
      ∧ (swapRowsProg ([[[1, 2], [3, 4]]] : Store Int) 0 0 1).2 ≠ 0
      ∧ (swapColsProg ([[[1, 2], [3, 4]]] : Store Int) 0 0 1).2 ≠ 0
      ∧ readS (swapRowsProg ([[[1, 2], [3, 4]]] : Store Int) 0 0 1).1
            (swapRowsProg ([[[1, 2], [3, 4]]] : Store Int) 0 0 1).2
          = swap_rows (readS ([[[1, 2], [3, 4]]] : Store Int) 0) 0 1
      ∧ readS (swapColsProg ([[[1, 2], [3, 4]]] : Store Int) 0 0 1).1
            (swapColsProg ([[[1, 2], [3, 4]]] : Store Int) 0 0 1).2
          = swap_cols (readS ([[[1, 2], [3, 4]]] : Store Int) 0) 0 1) :=
  ⟨by decide, C9_no_mutation [[[1, 2], [3, 4]]] 0 0 1 (by decide)⟩

/-- C10: for any two matrices whose flattenings have equal length,
including matrices of different two-dimensional shapes, greater returns
the Boolean lexicographic comparison of the flattened sequences; the
embedding is a total function exactly because the code performs no shape
check and raises nothing on such inputs. -/
theorem C10_flattened_comparison (A B : Mat α)
    (_hlen : (flatten A).length = (flatten B).length) :
    greater A B = true ↔ lexGtSpec (flatten A) (flatten B) :=
  greater_eq_true_iff A B

/-- Witness for C10 at a 2 by 3 versus 3 by 2 pair. -/
theorem C10_witness :
    (flatten ([[1, 2, 3], [4, 5, 6]] : Mat Int)).length
        = (flatten ([[1, 2], [3, 3], [9, 9]] : Mat Int)).length
    ∧ (greater ([[1, 2, 3], [4, 5, 6]] : Mat Int) [[1, 2], [3, 3], [9, 9]] = true
      ↔ lexGtSpec (flatten ([[1, 2, 3], [4, 5, 6]] : Mat Int))
          (flatten ([[1, 2], [3, 3], [9, 9]] : Mat Int))) :=
  ⟨by decide,
    C10_flattened_comparison [[1, 2, 3], [4, 5, 6]] [[1, 2], [3, 3], [9, 9]] (by decide)⟩

end InvariantML
